import Mathlib

/-!
# Verification of the PMR queue and tracking memory resource

Shallow embedding of `src/include/queue_pmr.hpp`:

* `DynamicVectorMemoryResource` — the tracking memory resource.  Its vector
  `blocks_` of `BlockInfo` records is a Lean list.  The underlying system
  allocator (`::operator new` / `::operator delete`) is modelled as a counter
  of fresh addresses starting at 1: each call hands out a distinct non-null
  address, and releases are recorded as explicit events `(address, alignment)`
  so that "released exactly once / with which alignment" is observable.
* `pmr_queue` — the singly linked queue.  Node storage is a finite map
  (association list) from addresses to `QueueNode` values; `head_`, `tail_`
  are optional addresses.
* C++ control flow that can fail is reflected in `CppResult`: a thrown
  exception (catchable, carries the message) is `thrown`, while undefined
  behaviour such as dereferencing a null pointer is `undefined`.
-/

namespace QueuePmr

/-- Outcome of a C++ operation: normal return, a thrown (catchable)
exception with its message, or undefined behaviour (e.g. a null-pointer
dereference), which is *not* a reported condition. -/
inductive CppResult (α : Type) where
  | ok : α → CppResult α
  | thrown : String → CppResult α
  | undefined : CppResult α
  deriving DecidableEq

/-- Whether the operation ended in a thrown (catchable) exception. -/
def CppResult.isThrown {α : Type} : CppResult α → Bool
  | .thrown _ => true
  | _ => false

/-- Record `BlockInfo` from the source: `{void *ptr; size_t size; size_t alignment;
bool allocated;}`.  Addresses are naturals; `0` plays the role of `nullptr`. -/
structure BlockInfo where
  ptr : Nat
  size : Nat
  alignment : Nat
  allocated : Bool
  deriving DecidableEq

/-- Resource `DynamicVectorMemoryResource`: the vector `blocks_` plus the state of the
underlying system allocator, modelled as the next fresh address (the resource
always asks the system for fresh memory; the system is modelled as never
reusing an address and never returning null, hence a counter starting at 1). -/
structure DynamicVectorMemoryResource where
  blocks : List BlockInfo
  nextAddr : Nat
  deriving DecidableEq

/-- A freshly constructed resource: no tracked blocks. -/
def DynamicVectorMemoryResource.new : DynamicVectorMemoryResource :=
  { blocks := [], nextAddr := 1 }

/-- Lookup `find_block`: `std::find_if` over `blocks_` from the beginning — the first
record whose `ptr` equals `p` (or none). -/
def DynamicVectorMemoryResource.find_block
    (mr : DynamicVectorMemoryResource) (p : Nat) : Option BlockInfo :=
  mr.blocks.find? (fun b => b.ptr == p)

/-- Allocation `do_allocate(bytes, alignment)`: obtain fresh memory from the system
allocator, append a live record `{ptr, bytes, alignment, true}`, return the
address.  Returns `(address, new resource state)`. -/
def DynamicVectorMemoryResource.do_allocate
    (mr : DynamicVectorMemoryResource) (bytes alignment : Nat) :
    Nat × DynamicVectorMemoryResource :=
  let ptr := mr.nextAddr
  (ptr, { blocks := mr.blocks ++ [⟨ptr, bytes, alignment, true⟩],
          nextAddr := mr.nextAddr + 1 })

/-- The scan of `do_deallocate` over the vector: find the first record whose
`ptr` equals `p`; if it is still allocated, release the memory with the
*recorded* alignment (`it->alignment`) and mark it; otherwise do nothing.
Returns `(release events, updated records)`. -/
def deallocBlocks : List BlockInfo → Nat → List (Nat × Nat) × List BlockInfo
  | [], _ => ([], [])
  | b :: bs, p =>
    if b.ptr == p then
      if b.allocated then
        ([(b.ptr, b.alignment)], { b with allocated := false } :: bs)
      else
        ([], b :: bs)
    else
      let r := deallocBlocks bs p
      (r.1, b :: r.2)

/-- Deallocation `do_deallocate(p, bytes, alignment)`.  As in the source, the `bytes` and
`alignment` arguments are not used for the release (the recorded alignment
is); an address with no live record is a silent no-op. -/
def DynamicVectorMemoryResource.do_deallocate
    (mr : DynamicVectorMemoryResource) (p bytes alignment : Nat) :
    List (Nat × Nat) × DynamicVectorMemoryResource :=
  let r := deallocBlocks mr.blocks p
  (r.1, { mr with blocks := r.2 })

/-- The destructor: for every record still `allocated`, release its memory
(with the recorded alignment).  The result is the list of release events, in
vector order. -/
def DynamicVectorMemoryResource.destruct
    (mr : DynamicVectorMemoryResource) : List (Nat × Nat) :=
  (mr.blocks.filter (fun b => b.allocated)).map (fun b => (b.ptr, b.alignment))

/-- Addresses of the records currently marked live. -/
def liveAddrs (mr : DynamicVectorMemoryResource) : List Nat :=
  (mr.blocks.filter (fun b => b.allocated)).map (fun b => b.ptr)

/-- Number of records currently marked live. -/
def liveCount (mr : DynamicVectorMemoryResource) : Nat :=
  (mr.blocks.filter (fun b => b.allocated)).length

/-- Well-formedness of a resource state: record addresses are pairwise
distinct, non-null, and below the system allocator's fresh counter. -/
def RInv (mr : DynamicVectorMemoryResource) : Prop :=
  (mr.blocks.map (fun b => b.ptr)).Nodup ∧
    (∀ b ∈ mr.blocks, b.ptr ≠ 0 ∧ b.ptr < mr.nextAddr) ∧ 0 < mr.nextAddr

instance (mr : DynamicVectorMemoryResource) : Decidable (RInv mr) := by
  unfold RInv; infer_instance

/-- Resource states reachable by sequences of allocate / deallocate calls on
a freshly constructed resource. -/
inductive RReach : DynamicVectorMemoryResource → Prop
  | init : RReach .new
  | alloc (bytes alignment : Nat) {mr : DynamicVectorMemoryResource} :
      RReach mr → RReach (mr.do_allocate bytes alignment).2
  | dealloc (p bytes alignment : Nat) {mr : DynamicVectorMemoryResource} :
      RReach mr → RReach (mr.do_deallocate p bytes alignment).2

/-! ## The queue -/

/-- Node `QueueNode<T>`: one element value and the address of the next node
(`nullptr` modelled as `none`). -/
structure QueueNode (T : Type) where
  value : T
  next : Option Nat
  deriving DecidableEq

/-- The node storage obtained through the allocator handle: an association
list from addresses to constructed nodes. -/
abbrev Heap (T : Type) := List (Nat × QueueNode T)

/-- Dereference an address: the node stored there, if any.  A lookup miss
corresponds to dereferencing a dangling or wild pointer in the source. -/
def lookupNode {T : Type} (heap : Heap T) (a : Nat) : Option (QueueNode T) :=
  (heap.find? (fun e => e.1 == a)).map (fun e => e.2)

/-- The store `node->next = x` at address `t` (updates the one node living at
that address; first occurrence, though addresses are unique in any state the
program produces). -/
def setNext {T : Type} : Heap T → Nat → Option Nat → Heap T
  | [], _, _ => []
  | e :: es, t, x =>
    if e.1 == t then (e.1, { e.2 with next := x }) :: es
    else e :: setNext es t x

/-- Deallocation of the node at address `a`: the storage is gone. -/
def removeNode {T : Type} : Heap T → Nat → Heap T
  | [], _ => []
  | e :: es, a => if e.1 == a then es else e :: removeNode es a

/-- Queue `pmr_queue<T>`: `head_`, `tail_` (optional node addresses), `size_`, and
the node storage reachble through the bound resource. -/
structure pmr_queue (T : Type) where
  heap : Heap T
  head : Option Nat
  tail : Option Nat
  size : Nat
  deriving DecidableEq

/-- The constructor: `head_ = nullptr, tail_ = nullptr, size_ = 0`, no node
storage. -/
def pmr_queue.new {T : Type} : pmr_queue T :=
  { heap := [], head := none, tail := none, size := 0 }

/-- Iterator `QueueIterator<T>`: just the current node address (`none` at the end
position; default construction yields the end position). -/
structure QueueIterator where
  node : Option Nat
  deriving DecidableEq

/-- Equality `operator==`: node identity. -/
def QueueIterator.beq (a b : QueueIterator) : Bool :=
  a.node == b.node

/-- The `begin()` operation: an iterator positioned at `head_`. -/
def pmr_queue.begin {T : Type} (q : pmr_queue T) : QueueIterator :=
  ⟨q.head⟩

/-- The `end()` operation (named `endIter` as `end` is a Lean keyword): the sentinel
iterator holding no node. -/
def pmr_queue.endIter {T : Type} (_q : pmr_queue T) : QueueIterator :=
  ⟨none⟩

/-- The `empty()` query: `head_ == nullptr`. -/
def pmr_queue.empty {T : Type} (q : pmr_queue T) : Bool :=
  q.head.isNone

/-- Dereference `operator*`: `return node_->value;` — *no* null check, so at the end
position this is a null-pointer dereference (undefined behaviour). -/
def QueueIterator.deref {T : Type} (heap : Heap T) (it : QueueIterator) :
    CppResult T :=
  match it.node with
  | none => .undefined
  | some a =>
    match lookupNode heap a with
    | none => .undefined
    | some n => .ok n.value

/-- Arrow `operator->`: `return &(node_->value);` — likewise unchecked; modelled as
producing the value the returned pointer refers to. -/
def QueueIterator.derefArrow {T : Type} (heap : Heap T) (it : QueueIterator) :
    CppResult T :=
  match it.node with
  | none => .undefined
  | some a =>
    match lookupNode heap a with
    | none => .undefined
    | some n => .ok n.value

/-- Pre-increment: `if (node_) node_ = node_->next;` — a guarded no-op at the
end position, a dereference otherwise. -/
def QueueIterator.inc {T : Type} (heap : Heap T) (it : QueueIterator) :
    CppResult QueueIterator :=
  match it.node with
  | none => .ok it
  | some a =>
    match lookupNode heap a with
    | none => .undefined
    | some n => .ok ⟨n.next⟩

/-- Post-increment: copy, pre-increment, return the copy together with the
advanced iterator: `(returned value, iterator afterwards)`. -/
def QueueIterator.incPost {T : Type} (heap : Heap T) (it : QueueIterator) :
    CppResult (QueueIterator × QueueIterator) :=
  match it.inc heap with
  | .ok it' => .ok (it, it')
  | .thrown m => .thrown m
  | .undefined => .undefined

/-- Operation `push(value)` with the element-construction outcome made explicit (the
copy/move constructor of `T` may throw).  Faithful to the statement order of
the source: allocate node storage, construct the node (value first), then
splice into the chain and increment `size_`.  If construction throws, the
exception propagates before any splice: the chain is untouched (and the
allocated storage stays live in the resource until its destruction).
`nodeBytes`/`nodeAlign` stand for `sizeof(Node)` / `alignof(Node)`. -/
def pushGen {T : Type} (nodeBytes nodeAlign : Nat) (q : pmr_queue T)
    (mr : DynamicVectorMemoryResource) (ctor : Except String T) :
    CppResult Unit × pmr_queue T × DynamicVectorMemoryResource :=
  let r := mr.do_allocate nodeBytes nodeAlign
  match ctor with
  | .error msg => (.thrown msg, q, r.2)
  | .ok v =>
    let node : QueueNode T := ⟨v, none⟩
    match q.tail with
    | none =>
      (.ok (), { heap := q.heap ++ [(r.1, node)], head := some r.1,
                 tail := some r.1, size := q.size + 1 }, r.2)
    | some t =>
      (.ok (), { heap := setNext (q.heap ++ [(r.1, node)]) t (some r.1),
                 head := q.head, tail := some r.1, size := q.size + 1 }, r.2)

/-- Operation `push(value)` when value construction succeeds. -/
def push {T : Type} (nodeBytes nodeAlign : Nat) (q : pmr_queue T)
    (mr : DynamicVectorMemoryResource) (v : T) :
    pmr_queue T × DynamicVectorMemoryResource :=
  (pushGen nodeBytes nodeAlign q mr (.ok v)).2

/-- Operation `pop()`: throws on an empty queue; otherwise detaches the head node,
advances `head_` (clearing `tail_` when the chain empties), destroys and
deallocates the detached node, decrements `size_`.  A dangling `head_`
would be undefined behaviour (unreachable from well-formed states). -/
def pop {T : Type} (nodeBytes nodeAlign : Nat) (q : pmr_queue T)
    (mr : DynamicVectorMemoryResource) :
    CppResult Unit × pmr_queue T × DynamicVectorMemoryResource :=
  match q.head with
  | none => (.thrown "pop from empty queue", q, mr)
  | some h =>
    match lookupNode q.heap h with
    | none => (.undefined, q, mr)
    | some node =>
      let tail' := if node.next = none then none else q.tail
      let mr' := (mr.do_deallocate h nodeBytes nodeAlign).2
      (.ok (), { heap := removeNode q.heap h, head := node.next,
                 tail := tail', size := q.size - 1 }, mr')

/-- Operation `front()`: throws on an empty queue, else the head node's value. -/
def front {T : Type} (q : pmr_queue T) : CppResult T :=
  match q.head with
  | none => .thrown "front of empty queue"
  | some h =>
    match lookupNode q.heap h with
    | none => .undefined
    | some node => .ok node.value

/-- The range-for loop `for (auto &x : q)`: start at `begin()`, stop when the
iterator equals `end()`, collect `*it` and advance.  Fuel bounds the walk
(the heap size suffices for well-formed states). -/
def collectFrom {T : Type} (heap : Heap T) : QueueIterator → Nat → List T
  | _, 0 => []
  | it, fuel + 1 =>
    if it.beq ⟨none⟩ then []
    else
      match it.deref heap, it.inc heap with
      | .ok v, .ok it' => v :: collectFrom heap it' fuel
      | _, _ => []

/-- The element sequence produced by iterating the queue from `begin()` to
`end()`. -/
def pmr_queue.toList {T : Type} (q : pmr_queue T) : List T :=
  collectFrom q.heap q.begin q.heap.length

/-- Push each element of `vs` in order. -/
def pushList {T : Type} (nodeBytes nodeAlign : Nat)
    (q : pmr_queue T) (mr : DynamicVectorMemoryResource) (vs : List T) :
    pmr_queue T × DynamicVectorMemoryResource :=
  vs.foldl (fun s v => push nodeBytes nodeAlign s.1 s.2 v) (q, mr)

/-- Pop `n` times (keeping only the resulting state, as the demo does). -/
def popN {T : Type} (nodeBytes nodeAlign : Nat) :
    Nat → pmr_queue T → DynamicVectorMemoryResource →
    pmr_queue T × DynamicVectorMemoryResource
  | 0, q, mr => (q, mr)
  | n + 1, q, mr =>
    let r := pop nodeBytes nodeAlign q mr
    popN nodeBytes nodeAlign n r.2.1 r.2.2

/-- Queue states (with their backing resource) reachable from a fresh queue
bound to a fresh resource by pushes and pops. -/
inductive Reach {T : Type} (nodeBytes nodeAlign : Nat) :
    pmr_queue T → DynamicVectorMemoryResource → Prop
  | init : Reach nodeBytes nodeAlign .new .new
  | push (v : T) {q : pmr_queue T} {mr : DynamicVectorMemoryResource} :
      Reach nodeBytes nodeAlign q mr →
      Reach nodeBytes nodeAlign (push nodeBytes nodeAlign q mr v).1
        (push nodeBytes nodeAlign q mr v).2
  | pop {q : pmr_queue T} {mr : DynamicVectorMemoryResource} :
      Reach nodeBytes nodeAlign q mr →
      Reach nodeBytes nodeAlign (pop nodeBytes nodeAlign q mr).2.1
        (pop nodeBytes nodeAlign q mr).2.2

/-- Walking `next` links from an optional address visits exactly the nodes
`(address, value)` listed, ending at `none`. -/
inductive Chain {T : Type} (heap : Heap T) :
    Option Nat → List (Nat × T) → Prop
  | nil : Chain heap none []
  | cons {a : Nat} {v : T} {nxt : Option Nat} {l : List (Nat × T)} :
      lookupNode heap a = some ⟨v, nxt⟩ → Chain heap nxt l →
      Chain heap (some a) ((a, v) :: l)

/-- Representation invariant coupling a queue with its resource: the chain
from `head_` is `l`, `size_` and `tail_` agree with it, node addresses are
unique and exactly the storage the resource currently tracks as live. -/
structure Rep {T : Type} (q : pmr_queue T)
    (mr : DynamicVectorMemoryResource) (l : List (Nat × T)) : Prop where
  chain : Chain q.heap q.head l
  size_eq : q.size = l.length
  tail_eq : q.tail = (l.map Prod.fst).getLast?
  chain_nodup : (l.map Prod.fst).Nodup
  keys_nodup : (q.heap.map Prod.fst).Nodup
  keys_sub : ∀ e ∈ q.heap, e.1 ∈ l.map Prod.fst
  addrs_lt : ∀ e ∈ q.heap, e.1 < mr.nextAddr
  rinv : RInv mr
  live_iff : ∀ a : Nat, a ∈ q.heap.map Prod.fst ↔ a ∈ liveAddrs mr

/-- The structural invariant of the queue, as the spec states it: `count == 0`
iff `head == none` iff `tail == none`; walking `next` links from `head` visits
exactly `count` nodes, the last visited equals `tail`, and the tail node's
`next` is `none`. -/
def SInv {T : Type} (q : pmr_queue T) : Prop :=
  (q.size = 0 ↔ q.head = none) ∧ (q.head = none ↔ q.tail = none) ∧
    ∃ l : List (Nat × T), Chain q.heap q.head l ∧ l.length = q.size ∧
      q.tail = (l.map Prod.fst).getLast? ∧
      ∀ t, q.tail = some t →
        ∃ n, lookupNode q.heap t = some n ∧ n.next = none

/-! ## Lookup lemmas for the node storage -/

theorem lookupNode_nil {T : Type} (k : Nat) :
    lookupNode ([] : Heap T) k = none := rfl

theorem lookupNode_cons {T : Type} (e : Nat × QueueNode T) (es : Heap T)
    (k : Nat) :
    lookupNode (e :: es) k =
      if e.1 = k then some e.2 else lookupNode es k := by
  by_cases h : e.1 = k
  · rw [if_pos h]
    unfold lookupNode
    rw [List.find?_cons_of_pos _ (by simpa using h)]
    rfl
  · rw [if_neg h]
    unfold lookupNode
    rw [List.find?_cons_of_neg _ (by simpa using h)]

theorem setNext_nil {T : Type} (t : Nat) (x : Option Nat) :
    setNext ([] : Heap T) t x = [] := rfl

theorem setNext_cons {T : Type} (e : Nat × QueueNode T) (es : Heap T)
    (t : Nat) (x : Option Nat) :
    setNext (e :: es) t x =
      if e.1 = t then (e.1, { e.2 with next := x }) :: es
      else e :: setNext es t x := by
  by_cases h : e.1 = t <;> simp [setNext, h]

theorem removeNode_cons {T : Type} (e : Nat × QueueNode T) (es : Heap T)
    (a : Nat) :
    removeNode (e :: es) a =
      if e.1 = a then es else e :: removeNode es a := by
  by_cases h : e.1 = a <;> simp [removeNode, h]

theorem lookupNode_mem {T : Type} {heap : Heap T} {a : Nat}
    {n : QueueNode T} (h : lookupNode heap a = some n) :
    a ∈ heap.map Prod.fst := by
  induction heap with
  | nil => simp [lookupNode_nil] at h
  | cons e es ih =>
    rw [lookupNode_cons] at h
    by_cases hek : e.1 = a
    · exact List.mem_map.2 ⟨e, List.mem_cons_self e es, hek⟩
    · rw [if_neg hek] at h
      exact List.mem_cons_of_mem _ (ih h)

theorem lookupNode_append_left {T : Type} {h1 : Heap T} (h2 : Heap T)
    {a : Nat} {n : QueueNode T} (h : lookupNode h1 a = some n) :
    lookupNode (h1 ++ h2) a = some n := by
  induction h1 with
  | nil => simp [lookupNode_nil] at h
  | cons e es ih =>
    rw [List.cons_append, lookupNode_cons]
    rw [lookupNode_cons] at h
    by_cases hek : e.1 = a
    · rwa [if_pos hek] at h ⊢
    · rw [if_neg hek] at h ⊢
      exact ih h

theorem lookupNode_append_right {T : Type} {h1 : Heap T} (h2 : Heap T)
    {a : Nat} (h : a ∉ h1.map Prod.fst) :
    lookupNode (h1 ++ h2) a = lookupNode h2 a := by
  induction h1 with
  | nil => rfl
  | cons e es ih =>
    rw [List.map_cons, List.mem_cons] at h
    push_neg at h
    rw [List.cons_append, lookupNode_cons, if_neg (Ne.symm h.1)]
    exact ih h.2

theorem lookupNode_setNext_ne {T : Type} {heap : Heap T} {k t : Nat}
    (x : Option Nat) (h : k ≠ t) :
    lookupNode (setNext heap t x) k = lookupNode heap k := by
  induction heap with
  | nil => rfl
  | cons e es ih =>
    rw [setNext_cons]
    by_cases het : e.1 = t
    · rw [if_pos het, lookupNode_cons, lookupNode_cons, if_neg, if_neg]
      · exact fun hek => h (het ▸ hek ▸ rfl)
      · exact fun hek => h (het ▸ hek ▸ rfl)
    · rw [if_neg het, lookupNode_cons, lookupNode_cons]
      by_cases hek : e.1 = k
      · rw [if_pos hek, if_pos hek]
      · rw [if_neg hek, if_neg hek, ih]

theorem lookupNode_setNext_eq {T : Type} {heap : Heap T} {t : Nat}
    {n : QueueNode T} (x : Option Nat) (h : lookupNode heap t = some n) :
    lookupNode (setNext heap t x) t = some { n with next := x } := by
  induction heap with
  | nil => simp [lookupNode_nil] at h
  | cons e es ih =>
    rw [lookupNode_cons] at h
    rw [setNext_cons]
    by_cases het : e.1 = t
    · rw [if_pos het] at h
      rw [if_pos het, lookupNode_cons, if_pos het]
      rw [Option.some_inj] at h
      rw [h]
    · rw [if_neg het] at h
      rw [if_neg het, lookupNode_cons, if_neg het]
      exact ih h

theorem setNext_map_fst {T : Type} (heap : Heap T) (t : Nat)
    (x : Option Nat) :
    (setNext heap t x).map Prod.fst = heap.map Prod.fst := by
  induction heap with
  | nil => rfl
  | cons e es ih =>
    rw [setNext_cons]
    by_cases het : e.1 = t
    · rw [if_pos het]
      rfl
    · rw [if_neg het, List.map_cons, List.map_cons, ih]

theorem removeNode_sublist {T : Type} (heap : Heap T) (a : Nat) :
    List.Sublist (removeNode heap a) heap := by
  induction heap with
  | nil => exact List.Sublist.refl []
  | cons e es ih =>
    rw [removeNode_cons]
    by_cases hea : e.1 = a
    · rw [if_pos hea]
      exact List.sublist_cons_self e es
    · rw [if_neg hea]
      exact ih.cons₂ e

theorem lookupNode_removeNode_ne {T : Type} {heap : Heap T} {k a : Nat}
    (h : k ≠ a) :
    lookupNode (removeNode heap a) k = lookupNode heap k := by
  induction heap with
  | nil => rfl
  | cons e es ih =>
    rw [removeNode_cons]
    by_cases hea : e.1 = a
    · rw [if_pos hea, lookupNode_cons, if_neg]
      exact fun hek => h (hea ▸ hek ▸ rfl)
    · rw [if_neg hea, lookupNode_cons, lookupNode_cons]
      by_cases hek : e.1 = k
      · rw [if_pos hek, if_pos hek]
      · rw [if_neg hek, if_neg hek, ih]

theorem mem_keys_removeNode {T : Type} {heap : Heap T} {a : Nat}
    (hnd : (heap.map Prod.fst).Nodup) (x : Nat) :
    x ∈ (removeNode heap a).map Prod.fst ↔
      x ∈ heap.map Prod.fst ∧ x ≠ a := by
  induction heap with
  | nil => simp [removeNode]
  | cons e es ih =>
    rw [List.map_cons, List.nodup_cons] at hnd
    have ihs := ih hnd.2
    rw [removeNode_cons]
    by_cases hea : e.1 = a
    · rw [if_pos hea]
      subst hea
      constructor
      · intro hx
        exact ⟨List.mem_cons_of_mem _ hx, fun hxa => hnd.1 (hxa ▸ hx)⟩
      · rintro ⟨hx, hxa⟩
        rcases List.mem_cons.1 hx with rfl | hx
        · exact absurd rfl hxa
        · exact hx
    · rw [if_neg hea, List.map_cons, List.mem_cons, List.map_cons,
        List.mem_cons, ihs]
      constructor
      · rintro (rfl | ⟨hx, hxa⟩)
        · exact ⟨Or.inl rfl, hea⟩
        · exact ⟨Or.inr hx, hxa⟩
      · rintro ⟨rfl | hx, hxa⟩
        · exact Or.inl rfl
        · exact Or.inr ⟨hx, hxa⟩

theorem not_mem_keys_removeNode {T : Type} {heap : Heap T} {a : Nat}
    (hnd : (heap.map Prod.fst).Nodup) :
    a ∉ (removeNode heap a).map Prod.fst := by
  intro h
  exact ((mem_keys_removeNode hnd a).1 h).2 rfl

/-! ## Lemmas about the tracking resource -/

theorem deallocBlocks_cons (b : BlockInfo) (bs : List BlockInfo) (p : Nat) :
    deallocBlocks (b :: bs) p =
      if b.ptr = p then
        if b.allocated then
          ([(b.ptr, b.alignment)], { b with allocated := false } :: bs)
        else ([], b :: bs)
      else ((deallocBlocks bs p).1, b :: (deallocBlocks bs p).2) := by
  by_cases h : b.ptr = p
  · by_cases ha : b.allocated <;> simp [deallocBlocks, h, ha]
  · simp [deallocBlocks, h]

theorem deallocBlocks_map_ptr (bs : List BlockInfo) (p : Nat) :
    (deallocBlocks bs p).2.map (fun b => b.ptr) = bs.map (fun b => b.ptr) := by
  induction bs with
  | nil => rfl
  | cons b bs ih =>
    rw [deallocBlocks_cons]
    by_cases h : b.ptr = p
    · rw [if_pos h]
      by_cases ha : b.allocated
      · rw [if_pos ha]
        simp
      · rw [if_neg ha]
    · rw [if_neg h, List.map_cons, List.map_cons, ih]

theorem deallocBlocks_length (bs : List BlockInfo) (p : Nat) :
    (deallocBlocks bs p).2.length = bs.length := by
  have h := congrArg List.length (deallocBlocks_map_ptr bs p)
  simpa using h

theorem deallocBlocks_events {bs : List BlockInfo} {p : Nat} :
    ∀ e ∈ (deallocBlocks bs p).1,
      ∃ b ∈ bs, b.ptr = p ∧ b.allocated = true ∧ e = (p, b.alignment) := by
  induction bs with
  | nil => intro e he; simp [deallocBlocks] at he
  | cons b bs ih =>
    intro e he
    rw [deallocBlocks_cons] at he
    by_cases h : b.ptr = p
    · rw [if_pos h] at he
      by_cases ha : b.allocated
      · rw [if_pos ha] at he
        rcases List.mem_singleton.1 he with rfl
        exact ⟨b, List.mem_cons_self b bs, h, ha, by rw [h]⟩
      · rw [if_neg ha] at he
        simp at he
    · rw [if_neg h] at he
      rcases ih e he with ⟨c, hc, hcp, hca, hce⟩
      exact ⟨c, List.mem_cons_of_mem _ hc, hcp, hca, hce⟩

theorem deallocBlocks_not_found {bs : List BlockInfo} {p : Nat}
    (h : bs.find? (fun b => b.ptr == p) = none) :
    deallocBlocks bs p = ([], bs) := by
  induction bs with
  | nil => rfl
  | cons b bs ih =>
    rw [List.find?_cons] at h
    rcases hb : (b.ptr == p) with _ | _
    · rw [hb] at h
      rw [deallocBlocks_cons, if_neg (by simpa using hb), ih h]
    · rw [hb] at h
      exact absurd h (by simp)

theorem deallocBlocks_found_dead {bs : List BlockInfo} {p : Nat}
    {b : BlockInfo} (h : bs.find? (fun c => c.ptr == p) = some b)
    (hb : b.allocated = false) :
    deallocBlocks bs p = ([], bs) := by
  induction bs with
  | nil => simp at h
  | cons c bs ih =>
    rcases hc : (c.ptr == p) with _ | _
    · rw [List.find?_cons_of_neg _ (by simp [hc])] at h
      rw [deallocBlocks_cons, if_neg (by simpa using hc), ih h]
    · rw [List.find?_cons_of_pos _ (by simp_all)] at h
      rw [Option.some_inj] at h
      subst h
      rw [deallocBlocks_cons, if_pos (by simpa using hc), if_neg (by simp [hb])]

theorem deallocBlocks_found_live {bs : List BlockInfo} {p : Nat}
    {b : BlockInfo} (h : bs.find? (fun c => c.ptr == p) = some b)
    (hb : b.allocated = true) :
    (deallocBlocks bs p).1 = [(p, b.alignment)] ∧
      (deallocBlocks bs p).2.find? (fun c => c.ptr == p) =
        some { b with allocated := false } := by
  induction bs with
  | nil => simp at h
  | cons c bs ih =>
    rcases hc : (c.ptr == p) with _ | _
    · rw [List.find?_cons_of_neg _ (by simp [hc])] at h
      rcases ih h with ⟨h1, h2⟩
      rw [deallocBlocks_cons, if_neg (by simpa using hc)]
      exact ⟨h1, by rw [List.find?_cons_of_neg _ (by simp [hc]), h2]⟩
    · rw [List.find?_cons_of_pos _ (by simp_all)] at h
      rw [Option.some_inj] at h
      subst h
      have hcp : c.ptr = p := by simpa using hc
      rw [deallocBlocks_cons, if_pos hcp, if_pos hb]
      refine ⟨by rw [hcp], ?_⟩
      rw [List.find?_cons_of_pos _ (by simpa using hcp)]

theorem deallocBlocks_getElem {bs : List BlockInfo} {p : Nat} (i : Nat)
    {b : BlockInfo} (hb : bs[i]? = some b) (hne : b.ptr ≠ p) :
    (deallocBlocks bs p).2[i]? = some b := by
  induction bs generalizing i with
  | nil => simp at hb
  | cons c bs ih =>
    rw [deallocBlocks_cons]
    match i with
    | 0 =>
      simp only [List.getElem?_cons_zero, Option.some_inj] at hb
      subst hb
      rw [if_neg hne]
      simp
    | i + 1 =>
      simp only [List.getElem?_cons_succ] at hb
      by_cases h : c.ptr = p
      · rw [if_pos h]
        by_cases ha : c.allocated
        · rw [if_pos ha]
          simpa using hb
        · rw [if_neg ha]
          simpa using hb
      · rw [if_neg h]
        simpa using ih i hb

theorem deallocBlocks_again (bs : List BlockInfo) (p : Nat) :
    (deallocBlocks (deallocBlocks bs p).2 p).1 = [] := by
  rcases h : bs.find? (fun c => c.ptr == p) with _ | b
  · rw [deallocBlocks_not_found h, deallocBlocks_not_found h]
  · rcases ha : b.allocated with _ | _
    · rw [deallocBlocks_found_dead h ha, deallocBlocks_found_dead h ha]
    · rcases deallocBlocks_found_live h ha with ⟨_, h2⟩
      rw [deallocBlocks_found_dead h2 rfl]

theorem rinv_new : RInv .new := by decide

theorem rinv_do_allocate {mr : DynamicVectorMemoryResource}
    (h : RInv mr) (bytes alignment : Nat) :
    RInv (mr.do_allocate bytes alignment).2 := by
  rcases h with ⟨hnd, hlt, hpos⟩
  refine ⟨?_, ?_, ?_⟩
  · rw [DynamicVectorMemoryResource.do_allocate]
    simp only [List.map_append, List.map_cons, List.map_nil]
    rw [List.nodup_append]
    refine ⟨hnd, List.nodup_singleton _, ?_⟩
    intro x hx hx2
    rw [List.mem_singleton] at hx2
    rcases List.mem_map.1 hx with ⟨b, hb, rfl⟩
    exact absurd (hlt b hb).2 (by rw [hx2]; exact Nat.lt_irrefl _)
  · intro b hb
    rw [DynamicVectorMemoryResource.do_allocate] at hb
    simp only [List.mem_append, List.mem_singleton] at hb
    rcases hb with hb | rfl
    · exact ⟨(hlt b hb).1, Nat.lt_succ_of_lt (hlt b hb).2⟩
    · exact ⟨Nat.not_eq_zero_of_lt hpos, Nat.lt_succ_self _⟩
  · exact Nat.lt_succ_of_lt hpos

theorem rinv_do_deallocate {mr : DynamicVectorMemoryResource}
    (h : RInv mr) (p bytes alignment : Nat) :
    RInv (mr.do_deallocate p bytes alignment).2 := by
  rcases h with ⟨hnd, hlt, hpos⟩
  refine ⟨?_, ?_, hpos⟩
  · show ((deallocBlocks mr.blocks p).2.map (fun b => b.ptr)).Nodup
    rw [deallocBlocks_map_ptr]
    exact hnd
  · intro b hb
    have : b.ptr ∈ (deallocBlocks mr.blocks p).2.map (fun b => b.ptr) :=
      List.mem_map_of_mem _ hb
    rw [deallocBlocks_map_ptr] at this
    rcases List.mem_map.1 this with ⟨c, hc, hcp⟩
    exact hcp ▸ hlt c hc

theorem rreach_rinv {mr : DynamicVectorMemoryResource} (h : RReach mr) :
    RInv mr := by
  induction h with
  | init => exact rinv_new
  | alloc bytes alignment _ ih => exact rinv_do_allocate ih bytes alignment
  | dealloc p bytes alignment _ ih => exact rinv_do_deallocate ih p bytes alignment

theorem liveAddrs_allocate (mr : DynamicVectorMemoryResource)
    (bytes alignment : Nat) :
    liveAddrs (mr.do_allocate bytes alignment).2 =
      liveAddrs mr ++ [mr.nextAddr] := by
  unfold liveAddrs DynamicVectorMemoryResource.do_allocate
  simp [List.filter_append]

theorem liveAddrs_subset {mr : DynamicVectorMemoryResource} {x : Nat}
    (h : x ∈ liveAddrs mr) : x ∈ mr.blocks.map (fun b => b.ptr) := by
  unfold liveAddrs at h
  rcases List.mem_map.1 h with ⟨b, hb, rfl⟩
  exact List.mem_map_of_mem _ (List.mem_of_mem_filter hb)

theorem mem_liveAddrs_deallocate {mr : DynamicVectorMemoryResource}
    (hnd : (mr.blocks.map (fun b => b.ptr)).Nodup) (p bytes alignment x : Nat) :
    x ∈ liveAddrs (mr.do_deallocate p bytes alignment).2 ↔
      x ∈ liveAddrs mr ∧ x ≠ p := by
  show x ∈ ((deallocBlocks mr.blocks p).2.filter (fun b => b.allocated)).map
      (fun b => b.ptr) ↔
    x ∈ (mr.blocks.filter (fun b => b.allocated)).map (fun b => b.ptr) ∧ x ≠ p
  generalize mr.blocks = bs at hnd
  induction bs with
  | nil => simp [deallocBlocks]
  | cons b bs ih =>
    rw [List.map_cons, List.nodup_cons] at hnd
    have ihs := ih hnd.2
    have hb_not : ∀ {c : BlockInfo}, c ∈ bs → c.ptr ≠ b.ptr := by
      intro c hc he
      exact hnd.1 (he ▸ List.mem_map_of_mem _ hc)
    rw [deallocBlocks_cons]
    by_cases h : b.ptr = p
    · rw [if_pos h]
      by_cases ha : b.allocated
      · rw [if_pos ha, List.filter_cons_of_neg (by simp),
          List.filter_cons_of_pos (by simpa using ha), List.map_cons]
        constructor
        · intro hx
          have hxp : x ≠ p := by
            intro he
            subst he
            rcases List.mem_map.1 hx with ⟨c, hc, rfl⟩
            exact (hb_not (List.mem_of_mem_filter hc)) (h ▸ rfl)
          exact ⟨List.mem_cons_of_mem _ hx, hxp⟩
        · rintro ⟨hx, hxp⟩
          rcases List.mem_cons.1 hx with he | hx2
          · exact absurd (he.trans h) hxp
          · exact hx2
      · rw [if_neg ha, List.filter_cons_of_neg (by simpa using ha)]
        constructor
        · intro hx
          refine ⟨hx, ?_⟩
          intro he
          subst he
          rcases List.mem_map.1 hx with ⟨c, hc, rfl⟩
          exact (hb_not (List.mem_of_mem_filter hc)) (h ▸ rfl)
        · exact fun hx => hx.1
    · rw [if_neg h]
      by_cases ha : b.allocated
      · rw [List.filter_cons_of_pos (by simpa using ha),
          List.filter_cons_of_pos (by simpa using ha), List.map_cons,
          List.map_cons]
        constructor
        · intro hx
          rcases List.mem_cons.1 hx with rfl | hx2
          · exact ⟨List.mem_cons_self _ _, h⟩
          · rcases ihs.1 hx2 with ⟨hx3, hx4⟩
            exact ⟨List.mem_cons_of_mem _ hx3, hx4⟩
        · rintro ⟨hx, hxp⟩
          rcases List.mem_cons.1 hx with rfl | hx2
          · exact List.mem_cons_self _ _
          · exact List.mem_cons_of_mem _ (ihs.2 ⟨hx2, hxp⟩)
      · rw [List.filter_cons_of_neg (by simpa using ha),
          List.filter_cons_of_neg (by simpa using ha)]
        exact ihs

theorem find?_ptr_self {bs : List BlockInfo}
    (hnd : (bs.map (fun b => b.ptr)).Nodup) {b : BlockInfo} (hb : b ∈ bs) :
    bs.find? (fun c => c.ptr == b.ptr) = some b := by
  induction bs with
  | nil => simp at hb
  | cons c bs ih =>
    rw [List.map_cons, List.nodup_cons] at hnd
    rcases List.mem_cons.1 hb with rfl | hb2
    · rw [List.find?_cons_of_pos _ (by simp)]
    · have hcb : c.ptr ≠ b.ptr := by
        intro he
        exact hnd.1 (he ▸ List.mem_map_of_mem _ hb2)
      rw [List.find?_cons_of_neg _ (by simpa using hcb), ih hnd.2 hb2]

/-! ## Chain lemmas -/

theorem chain_nil_inv {T : Type} {heap : Heap T} {h : Option Nat}
    (hc : Chain heap h []) : h = none := by
  cases hc
  rfl

theorem chain_none_inv {T : Type} {heap : Heap T} {l : List (Nat × T)}
    (hc : Chain heap none l) : l = [] := by
  cases hc
  rfl

theorem chain_cons_inv {T : Type} {heap : Heap T} {a : Nat}
    {l : List (Nat × T)} (hc : Chain heap (some a) l) :
    ∃ v nxt l', l = (a, v) :: l' ∧
      lookupNode heap a = some ⟨v, nxt⟩ ∧ Chain heap nxt l' := by
  cases hc with
  | cons hl hc2 => exact ⟨_, _, _, rfl, hl, hc2⟩

theorem chain_subset_keys {T : Type} {heap : Heap T} {h : Option Nat}
    {l : List (Nat × T)} (hc : Chain heap h l) :
    ∀ q ∈ l, q.1 ∈ heap.map Prod.fst := by
  induction hc with
  | nil =>
    intro q hq
    simp at hq
  | cons hl _ ih =>
    intro q hq
    rcases List.mem_cons.1 hq with rfl | hq2
    · exact lookupNode_mem hl
    · exact ih q hq2

theorem chain_congr {T : Type} {heap heap' : Heap T} {h : Option Nat}
    {l : List (Nat × T)} (hc : Chain heap h l)
    (heq : ∀ q ∈ l, lookupNode heap' q.1 = lookupNode heap q.1) :
    Chain heap' h l := by
  induction hc with
  | nil => exact Chain.nil
  | cons hl hc2 ih =>
    refine Chain.cons ?_ (ih ?_)
    · rw [heq _ (List.mem_cons_self _ _)]
      exact hl
    · intro q hq
      exact heq q (List.mem_cons_of_mem _ hq)

theorem chain_last {T : Type} {heap : Heap T} {h : Option Nat}
    {l : List (Nat × T)} (hc : Chain heap h l) :
    ∀ t : Nat, ∀ v : T, l.getLast? = some (t, v) →
      ∃ n, lookupNode heap t = some n ∧ n.next = none := by
  induction hc with
  | nil =>
    intro t v hl
    simp at hl
  | @cons a v0 nxt l' hlk hc2 ih =>
    intro t v hl
    cases l' with
    | nil =>
      rw [List.getLast?_singleton, Option.some_inj] at hl
      have h1 : a = t := congrArg Prod.fst hl
      subst h1
      exact ⟨⟨v0, nxt⟩, hlk, by rw [chain_nil_inv hc2]⟩
    | cons q rest =>
      rw [List.getLast?_cons_cons] at hl
      exact ih t v hl

theorem chain_snoc {T : Type} {heap : Heap T} {h : Option Nat}
    {l : List (Nat × T)} (hc : Chain heap h l) :
    ∀ t a : Nat, ∀ v : T,
      (l.map Prod.fst).getLast? = some t →
      (l.map Prod.fst).Nodup →
      a ∉ heap.map Prod.fst →
      Chain (setNext (heap ++ [(a, ⟨v, none⟩)]) t (some a)) h
        (l ++ [(a, v)]) := by
  induction hc with
  | nil =>
    intro t a v hl
    simp at hl
  | @cons a0 v0 nxt l' hlk hc2 ih =>
    intro t a v hl hnd hah
    have ha0_keys : a0 ∈ heap.map Prod.fst := lookupNode_mem hlk
    have ha0a : a0 ≠ a := fun he => hah (he ▸ ha0_keys)
    cases l' with
    | nil =>
      rw [List.map_cons, List.map_nil, List.getLast?_singleton,
        Option.some_inj] at hl
      subst hl
      have hnxt : nxt = none := chain_nil_inv hc2
      subst hnxt
      refine @Chain.cons _ _ a0 v0 (some a) _ ?_ ?_
      · have h1 : lookupNode (heap ++ [(a, (⟨v, none⟩ : QueueNode T))]) a0 =
            some ⟨v0, none⟩ := lookupNode_append_left _ hlk
        exact lookupNode_setNext_eq (some a) h1
      · refine @Chain.cons _ _ a v none _ ?_ Chain.nil
        rw [lookupNode_setNext_ne (some a) (Ne.symm ha0a),
          lookupNode_append_right _ hah, lookupNode_cons, if_pos rfl]
    | cons q rest =>
      rw [List.map_cons, List.map_cons, List.getLast?_cons_cons] at hl
      rw [List.map_cons, List.nodup_cons] at hnd
      have htl : t ∈ (q :: rest).map Prod.fst := by
        rw [List.map_cons]
        exact List.mem_of_getLast?_eq_some hl
      have ha0t : a0 ≠ t := fun he => hnd.1 (he ▸ htl)
      refine @Chain.cons _ _ a0 v0 nxt _ ?_ ?_
      · rw [lookupNode_setNext_ne (some a) ha0t]
        exact lookupNode_append_left _ hlk
      · exact ih t a v (by rw [List.map_cons]; exact hl) hnd.2 hah

theorem collect_chain {T : Type} {heap : Heap T} {h : Option Nat}
    {l : List (Nat × T)} (hc : Chain heap h l) :
    ∀ fuel : Nat, l.length ≤ fuel →
      collectFrom heap ⟨h⟩ fuel = l.map Prod.snd := by
  induction hc with
  | nil =>
    intro fuel _
    cases fuel with
    | zero => rfl
    | succ f => simp [collectFrom, QueueIterator.beq]
  | @cons a v nxt l' hlk hc2 ih =>
    intro fuel hf
    cases fuel with
    | zero => simp at hf
    | succ f =>
      have hlen : l'.length ≤ f := by
        rw [List.length_cons] at hf
        exact Nat.le_of_succ_le_succ hf
      simp only [collectFrom, QueueIterator.beq, QueueIterator.deref,
        QueueIterator.inc, hlk]
      simp only [beq_iff_eq, Option.some.injEq, reduceCtorEq, if_neg,
        ite_false]
      rw [List.map_cons]
      exact congrArg (v :: ·) (ih f hlen)

/-! ## Preservation of the representation invariant -/

theorem rep_new {T : Type} : Rep (pmr_queue.new : pmr_queue T) .new [] := by
  refine ⟨Chain.nil, rfl, rfl, List.nodup_nil, List.nodup_nil, ?_, ?_,
    rinv_new, ?_⟩
  · intro e he
    simp [pmr_queue.new] at he
  · intro e he
    simp [pmr_queue.new] at he
  · intro a
    simp [pmr_queue.new, liveAddrs, DynamicVectorMemoryResource.new]

theorem rep_push {T : Type} {q : pmr_queue T}
    {mr : DynamicVectorMemoryResource} {l : List (Nat × T)}
    (hr : Rep q mr l) (nodeBytes nodeAlign : Nat) (v : T) :
    Rep (push nodeBytes nodeAlign q mr v).1
      (push nodeBytes nodeAlign q mr v).2 (l ++ [(mr.nextAddr, v)]) := by
  obtain ⟨hc, hsz, htl, hcnd, hknd, hks, halt, hrinv, hlive⟩ := hr
  have hafresh : mr.nextAddr ∉ q.heap.map Prod.fst := by
    intro hmem
    rcases List.mem_map.1 hmem with ⟨e, he, hep⟩
    have := halt e he
    rw [hep] at this
    exact Nat.lt_irrefl _ this
  have hlive_old : ∀ x : Nat, x ∈ liveAddrs mr → x < mr.nextAddr := by
    intro x hx
    rcases List.mem_map.1 (liveAddrs_subset hx) with ⟨b, hb, rfl⟩
    exact (hrinv.2.1 b hb).2
  cases htail : q.tail with
  | none =>
    have hlnil : l = [] := by
      rw [htail] at htl
      exact List.map_eq_nil_iff.1 (List.getLast?_eq_none_iff.1 htl.symm)
    subst hlnil
    have hheap : q.heap = [] := by
      rw [List.eq_nil_iff_forall_not_mem]
      intro e he
      simpa using hks e he
    have hpush : push nodeBytes nodeAlign q mr v =
        ({ heap := q.heap ++ [(mr.nextAddr, ⟨v, none⟩)],
           head := some mr.nextAddr, tail := some mr.nextAddr,
           size := q.size + 1 },
         (mr.do_allocate nodeBytes nodeAlign).2) := by
      simp [push, pushGen, htail, DynamicVectorMemoryResource.do_allocate]
    rw [hpush]
    refine ⟨?_, ?_, ?_, ?_, ?_, ?_, ?_, rinv_do_allocate hrinv _ _, ?_⟩
    · refine @Chain.cons _ _ mr.nextAddr v none _ ?_ Chain.nil
      show lookupNode (q.heap ++ [(mr.nextAddr, ⟨v, none⟩)]) mr.nextAddr = _
      rw [lookupNode_append_right _ hafresh, lookupNode_cons, if_pos rfl]
    · show q.size + 1 = _
      rw [hsz]
      rfl
    · simp
    · simp
    · show ((q.heap ++ [(mr.nextAddr, (⟨v, none⟩ : QueueNode T))]).map Prod.fst).Nodup
      rw [hheap]
      simp
    · intro e he
      rw [hheap] at he
      simp only [List.nil_append, List.mem_singleton] at he
      subst he
      simp
    · intro e he
      rw [hheap] at he
      simp only [List.nil_append, List.mem_singleton] at he
      subst he
      show mr.nextAddr < (mr.do_allocate nodeBytes nodeAlign).2.nextAddr
      exact Nat.lt_succ_self _
    · intro x
      have hlempty : liveAddrs mr = [] := by
        rw [List.eq_nil_iff_forall_not_mem]
        intro y hy
        have := (hlive y).2 hy
        rw [hheap] at this
        simp at this
      show x ∈ (q.heap ++ [(mr.nextAddr, (⟨v, none⟩ : QueueNode T))]).map Prod.fst ↔
        x ∈ liveAddrs (mr.do_allocate nodeBytes nodeAlign).2
      rw [liveAddrs_allocate, hheap, hlempty]
      simp
  | some t =>
    have hpush : push nodeBytes nodeAlign q mr v =
        ({ heap := setNext (q.heap ++ [(mr.nextAddr, ⟨v, none⟩)]) t
             (some mr.nextAddr),
           head := q.head, tail := some mr.nextAddr, size := q.size + 1 },
         (mr.do_allocate nodeBytes nodeAlign).2) := by
      simp [push, pushGen, htail, DynamicVectorMemoryResource.do_allocate]
    have hfresh_chain : mr.nextAddr ∉ l.map Prod.fst := by
      intro hmem
      rcases List.mem_map.1 hmem with ⟨p, hp, hpf⟩
      exact hafresh (hpf ▸ chain_subset_keys hc p hp)
    have hlast : (l.map Prod.fst).getLast? = some t := by
      rw [htail] at htl
      exact htl.symm
    rw [hpush]
    refine ⟨?_, ?_, ?_, ?_, ?_, ?_, ?_, rinv_do_allocate hrinv _ _, ?_⟩
    · exact chain_snoc hc t mr.nextAddr v hlast hcnd hafresh
    · show q.size + 1 = _
      rw [hsz]
      simp
    · show some mr.nextAddr = ((l ++ [(mr.nextAddr, v)]).map Prod.fst).getLast?
      rw [List.map_append]
      simp [List.getLast?_concat]
    · show ((l ++ [(mr.nextAddr, v)]).map Prod.fst).Nodup
      rw [List.map_append, List.nodup_append]
      refine ⟨hcnd, by simp, ?_⟩
      intro x hx hx2
      rcases List.mem_singleton.1 (by simpa using hx2) with rfl
      exact hfresh_chain hx
    · show ((setNext (q.heap ++ [(mr.nextAddr, (⟨v, none⟩ : QueueNode T))]) t
          (some mr.nextAddr)).map Prod.fst).Nodup
      rw [setNext_map_fst, List.map_append, List.nodup_append]
      refine ⟨hknd, by simp, ?_⟩
      intro x hx hx2
      rcases List.mem_singleton.1 (by simpa using hx2) with rfl
      exact hafresh hx
    · intro e he
      have hkey : e.1 ∈ q.heap.map Prod.fst ++ [mr.nextAddr] := by
        have h1 := List.mem_map_of_mem Prod.fst he
        rwa [setNext_map_fst, List.map_append, List.map_singleton] at h1
      rw [List.map_append, List.map_singleton]
      rcases List.mem_append.1 hkey with hk | hk
      · rcases List.mem_map.1 hk with ⟨e0, he0, hef⟩
        exact List.mem_append_left _ (hef ▸ hks e0 he0)
      · exact List.mem_append_right _ hk
    · intro e he
      have hkey : e.1 ∈ q.heap.map Prod.fst ++ [mr.nextAddr] := by
        have h1 := List.mem_map_of_mem Prod.fst he
        rwa [setNext_map_fst, List.map_append, List.map_singleton] at h1
      show e.1 < (mr.do_allocate nodeBytes nodeAlign).2.nextAddr
      rcases List.mem_append.1 hkey with hk | hk
      · rcases List.mem_map.1 hk with ⟨e0, he0, hef⟩
        exact hef ▸ Nat.lt_succ_of_lt (halt e0 he0)
      · rw [List.mem_singleton.1 hk]
        exact Nat.lt_succ_self _
    · intro x
      show x ∈ (setNext (q.heap ++ [(mr.nextAddr, (⟨v, none⟩ : QueueNode T))]) t
          (some mr.nextAddr)).map Prod.fst ↔
        x ∈ liveAddrs (mr.do_allocate nodeBytes nodeAlign).2
      rw [setNext_map_fst, List.map_append, List.map_singleton,
        liveAddrs_allocate, List.mem_append, List.mem_append, hlive x]

theorem rep_pop_ok {T : Type} {q : pmr_queue T}
    {mr : DynamicVectorMemoryResource} {a : Nat} {v : T}
    {l : List (Nat × T)} (hr : Rep q mr ((a, v) :: l))
    (nodeBytes nodeAlign : Nat) :
    (pop nodeBytes nodeAlign q mr).1 = .ok () ∧
      Rep (pop nodeBytes nodeAlign q mr).2.1
        (pop nodeBytes nodeAlign q mr).2.2 l := by
  obtain ⟨hc, hsz, htl, hcnd, hknd, hks, halt, hrinv, hlive⟩ := hr
  have hhead : q.head = some a := by
    cases hh : q.head with
    | none =>
      rw [hh] at hc
      exact absurd (chain_none_inv hc) (by simp)
    | some a0 =>
      rw [hh] at hc
      rcases chain_cons_inv hc with ⟨v0, nxt0, l0, heq, _, _⟩
      injection heq with h1 hl1
      injection h1 with ha1 hv1
      rw [ha1]
  rw [hhead] at hc
  rcases chain_cons_inv hc with ⟨v0, nxt, l0, heq, hlk, hc2⟩
  injection heq with h1 hl1
  injection h1 with ha1 hv1
  subst hl1
  subst hv1
  have hnot_l : a ∉ l.map Prod.fst := by
    rw [List.map_cons, List.nodup_cons] at hcnd
    exact hcnd.1
  have hpop : pop nodeBytes nodeAlign q mr =
      (.ok (), { heap := removeNode q.heap a, head := nxt,
                 tail := if nxt = none then none else q.tail,
                 size := q.size - 1 },
       (mr.do_deallocate a nodeBytes nodeAlign).2) := by
    simp [pop, hhead, hlk]
  rw [hpop]
  refine ⟨rfl, ?_, ?_, ?_, ?_, ?_, ?_, ?_,
    rinv_do_deallocate hrinv a nodeBytes nodeAlign, ?_⟩
  · show Chain (removeNode q.heap a) nxt l
    refine chain_congr hc2 ?_
    intro p hp
    refine lookupNode_removeNode_ne ?_
    intro hpa
    exact hnot_l (hpa ▸ List.mem_map_of_mem Prod.fst hp)
  · show q.size - 1 = l.length
    rw [hsz, List.length_cons]
    rfl
  · show (if nxt = none then none else q.tail) = (l.map Prod.fst).getLast?
    cases l with
    | nil =>
      rw [chain_nil_inv hc2]
      simp
    | cons p rest =>
      have hnxt : nxt = some p.1 := by
        cases hn : nxt with
        | none =>
          rw [hn] at hc2
          exact absurd (chain_none_inv hc2) (by simp)
        | some b =>
          rw [hn] at hc2
          rcases chain_cons_inv hc2 with ⟨v1, nxt1, l1, heq1, _, _⟩
          rw [show b = p.1 from by
            rw [show p = (b, v1) from by injection heq1]]
      rw [hnxt, if_neg (by simp), htl, List.map_cons, List.map_cons,
        List.getLast?_cons_cons]
  · rw [List.map_cons, List.nodup_cons] at hcnd
    exact hcnd.2
  · show ((removeNode q.heap a).map Prod.fst).Nodup
    exact ((removeNode_sublist q.heap a).map Prod.fst).nodup hknd
  · intro e he
    have hmem : e.1 ∈ (removeNode q.heap a).map Prod.fst :=
      List.mem_map_of_mem Prod.fst he
    have h1 := (mem_keys_removeNode hknd e.1).1 hmem
    have h2 := hks e ((removeNode_sublist q.heap a).subset he)
    rw [List.map_cons] at h2
    rcases List.mem_cons.1 h2 with he1 | he2
    · exact absurd he1 h1.2
    · exact he2
  · intro e he
    show e.1 < (mr.do_deallocate a nodeBytes nodeAlign).2.nextAddr
    have : (mr.do_deallocate a nodeBytes nodeAlign).2.nextAddr =
        mr.nextAddr := rfl
    rw [this]
    exact halt e ((removeNode_sublist q.heap a).subset he)
  · intro x
    show x ∈ (removeNode q.heap a).map Prod.fst ↔
      x ∈ liveAddrs (mr.do_deallocate a nodeBytes nodeAlign).2
    rw [mem_keys_removeNode hknd,
      mem_liveAddrs_deallocate hrinv.1 a nodeBytes nodeAlign, hlive x]

theorem rep_pop_empty {T : Type} {q : pmr_queue T}
    {mr : DynamicVectorMemoryResource} (hr : Rep q mr [])
    (nodeBytes nodeAlign : Nat) :
    pop nodeBytes nodeAlign q mr =
      (.thrown "pop from empty queue", q, mr) := by
  have hh : q.head = none := chain_nil_inv hr.chain
  simp [pop, hh]

theorem reach_rep {T : Type} {nodeBytes nodeAlign : Nat}
    {q : pmr_queue T} {mr : DynamicVectorMemoryResource}
    (h : Reach nodeBytes nodeAlign q mr) : ∃ l, Rep q mr l := by
  induction h with
  | init => exact ⟨[], rep_new⟩
  | push v _ ih =>
    rcases ih with ⟨l, hr⟩
    exact ⟨_, rep_push hr nodeBytes nodeAlign v⟩
  | pop _ ih =>
    rcases ih with ⟨l, hr⟩
    cases l with
    | nil =>
      rw [rep_pop_empty hr nodeBytes nodeAlign]
      exact ⟨[], hr⟩
    | cons p rest =>
      rcases p with ⟨a, v⟩
      exact ⟨rest, (rep_pop_ok hr nodeBytes nodeAlign).2⟩

theorem rep_toList {T : Type} {q : pmr_queue T}
    {mr : DynamicVectorMemoryResource} {l : List (Nat × T)}
    (hr : Rep q mr l) : q.toList = l.map Prod.snd := by
  have hsub : l.map Prod.fst ⊆ q.heap.map Prod.fst := by
    intro x hx
    rcases List.mem_map.1 hx with ⟨p, hp, rfl⟩
    exact chain_subset_keys hr.chain p hp
  have hlen : l.length ≤ q.heap.length := by
    have h1 := (List.subperm_of_subset hr.chain_nodup hsub).length_le
    simpa using h1
  show collectFrom q.heap ⟨q.head⟩ q.heap.length = l.map Prod.snd
  exact collect_chain hr.chain q.heap.length hlen

theorem rep_pushList {T : Type} (nodeBytes nodeAlign : Nat) (vs : List T) :
    ∀ {q : pmr_queue T} {mr : DynamicVectorMemoryResource}
      {l : List (Nat × T)}, Rep q mr l →
      ∃ l', Rep (pushList nodeBytes nodeAlign q mr vs).1
          (pushList nodeBytes nodeAlign q mr vs).2 (l ++ l') ∧
        l'.map Prod.snd = vs := by
  induction vs with
  | nil =>
    intro q mr l hr
    exact ⟨[], by simpa [pushList] using hr, rfl⟩
  | cons v vs ih =>
    intro q mr l hr
    have h1 := rep_push hr nodeBytes nodeAlign v
    rcases ih h1 with ⟨l', h2, h3⟩
    refine ⟨(mr.nextAddr, v) :: l', ?_, by rw [List.map_cons, h3]⟩
    have hfold : pushList nodeBytes nodeAlign q mr (v :: vs) =
        pushList nodeBytes nodeAlign (push nodeBytes nodeAlign q mr v).1
          (push nodeBytes nodeAlign q mr v).2 vs := by
      simp [pushList]
    rw [hfold]
    simpa [List.append_assoc] using h2

theorem rep_popN {T : Type} (nodeBytes nodeAlign : Nat) :
    ∀ {l : List (Nat × T)} {q : pmr_queue T}
      {mr : DynamicVectorMemoryResource}, Rep q mr l →
      Rep (popN nodeBytes nodeAlign l.length q mr).1
        (popN nodeBytes nodeAlign l.length q mr).2 [] := by
  intro l
  induction l with
  | nil =>
    intro q mr hr
    simpa [popN] using hr
  | cons p rest ih =>
    intro q mr hr
    rcases p with ⟨a, v⟩
    have h1 := (rep_pop_ok hr nodeBytes nodeAlign).2
    have hstep : popN nodeBytes nodeAlign ((a, v) :: rest).length q mr =
        popN nodeBytes nodeAlign rest.length
          (pop nodeBytes nodeAlign q mr).2.1
          (pop nodeBytes nodeAlign q mr).2.2 := by
      simp [popN]
    rw [hstep]
    exact ih h1

theorem rep_sinv {T : Type} {q : pmr_queue T}
    {mr : DynamicVectorMemoryResource} {l : List (Nat × T)}
    (hr : Rep q mr l) : SInv q := by
  obtain ⟨hc, hsz, htl, hcnd, hknd, hks, halt, hrinv, hlive⟩ := hr
  have hhead_iff : q.head = none ↔ l = [] := by
    constructor
    · intro hh
      rw [hh] at hc
      exact chain_none_inv hc
    · intro hl
      subst hl
      exact chain_nil_inv hc
  refine ⟨?_, ?_, l, hc, hsz.symm, htl, ?_⟩
  · rw [hsz, hhead_iff]
    exact List.length_eq_zero
  · rw [hhead_iff, htl, List.getLast?_eq_none_iff, List.map_eq_nil_iff]
  · intro t ht
    rw [htl] at ht
    have hmt : (l.getLast?).map Prod.fst = some t := by
      rw [← List.getLast?_map]
      exact ht
    rcases Option.map_eq_some'.1 hmt with ⟨p, hp, hpf⟩
    rcases p with ⟨t', v'⟩
    cases hpf
    exact chain_last hc t' v' hp

theorem rep_nil_facts {T : Type} {q : pmr_queue T}
    {mr : DynamicVectorMemoryResource} (hr : Rep q mr []) :
    q.empty = true ∧ q.size = 0 ∧ liveCount mr = 0 := by
  obtain ⟨hc, hsz, htl, hcnd, hknd, hks, halt, hrinv, hlive⟩ := hr
  have hh : q.head = none := chain_nil_inv hc
  have hheap : q.heap = [] := by
    rw [List.eq_nil_iff_forall_not_mem]
    intro e he
    simpa using hks e he
  have hlempty : liveAddrs mr = [] := by
    rw [List.eq_nil_iff_forall_not_mem]
    intro y hy
    have := (hlive y).2 hy
    rw [hheap] at this
    simp at this
  refine ⟨?_, hsz, ?_⟩
  · rw [pmr_queue.empty, hh]
    rfl
  · unfold liveCount
    unfold liveAddrs at hlempty
    rw [List.map_eq_nil_iff.1 hlempty]
    rfl

theorem countP_destruct {bs : List BlockInfo}
    (hnd : (bs.map (fun b => b.ptr)).Nodup) {b : BlockInfo} (hb : b ∈ bs) :
    ((bs.filter (fun c => c.allocated)).map
        (fun c => (c.ptr, c.alignment))).countP (fun e => e.1 == b.ptr) =
      if b.allocated then 1 else 0 := by
  induction bs with
  | nil => simp at hb
  | cons c bs ih =>
    rw [List.map_cons, List.nodup_cons] at hnd
    have hzero : ∀ x : Nat, x ∉ bs.map (fun d => d.ptr) →
        ((bs.filter (fun d => d.allocated)).map
          (fun d => (d.ptr, d.alignment))).countP (fun e => e.1 == x) = 0 := by
      intro x hx
      rw [List.countP_eq_zero]
      intro e he
      rcases List.mem_map.1 he with ⟨d, hd, rfl⟩
      simp only [beq_iff_eq]
      intro hdp
      exact hx (hdp ▸ List.mem_map_of_mem _ (List.mem_of_mem_filter hd))
    rcases List.mem_cons.1 hb with rfl | hb2
    · by_cases ha : b.allocated
      · rw [List.filter_cons_of_pos (by simpa using ha), List.map_cons,
          List.countP_cons_of_pos _ _ (by simp), hzero b.ptr hnd.1, if_pos ha]
      · rw [List.filter_cons_of_neg (by simpa using ha), hzero b.ptr hnd.1,
          if_neg ha]
    · have hcb : c.ptr ≠ b.ptr := by
        intro he
        exact hnd.1 (he ▸ List.mem_map_of_mem _ hb2)
      by_cases hca : c.allocated
      · rw [List.filter_cons_of_pos (by simpa using hca), List.map_cons,
          List.countP_cons_of_neg _ _ (by simpa using hcb), ih hnd.2 hb2]
      · rw [List.filter_cons_of_neg (by simpa using hca), ih hnd.2 hb2]

/-! ## The claims -/

/-- C1: for every sequence of values `v1..vn` pushed in order onto a queue
constructed empty and bound to a fresh resource, iterating from `begin()` to
`end()` yields exactly `v1..vn` in that order, and `size()` returns `n`
after the pushes. -/
theorem c1_push_iterate_in_order {T : Type} (nodeBytes nodeAlign : Nat)
    (vs : List T) :
    (pushList nodeBytes nodeAlign pmr_queue.new .new vs).1.toList = vs ∧
      (pushList nodeBytes nodeAlign pmr_queue.new .new vs).1.size =
        vs.length := by
  rcases rep_pushList nodeBytes nodeAlign vs rep_new with ⟨l', hr, hvs⟩
  rw [List.nil_append] at hr
  constructor
  · rw [rep_toList hr, hvs]
  · rw [hr.size_eq, ← hvs, List.length_map]

/-- C2: a freshly constructed queue has `empty() = true`, `size() = 0` and
`begin() == end()`; `front()` and `pop()` on any empty queue throw the
empty-queue exception (a catchable error), and a failed `pop()` leaves the
queue (hence its size) and the resource unchanged. -/
theorem c2_fresh_queue_and_empty_ops_throw (T : Type)
    (nodeBytes nodeAlign : Nat) (q : pmr_queue T)
    (mr : DynamicVectorMemoryResource) :
    (pmr_queue.new : pmr_queue T).empty = true ∧
    (pmr_queue.new : pmr_queue T).size = 0 ∧
    QueueIterator.beq (pmr_queue.new : pmr_queue T).begin
      (pmr_queue.new : pmr_queue T).endIter = true ∧
    (q.empty = true →
      front q = .thrown "front of empty queue" ∧
      (pop nodeBytes nodeAlign q mr).1 = .thrown "pop from empty queue" ∧
      (pop nodeBytes nodeAlign q mr).2.1 = q ∧
      (pop nodeBytes nodeAlign q mr).2.2 = mr) := by
  refine ⟨by rfl, by rfl, by rfl, ?_⟩
  intro hq
  have hh : q.head = none := by
    rw [pmr_queue.empty] at hq
    exact Option.isNone_iff_eq_none.1 hq
  exact ⟨by simp [front, hh], by simp [pop, hh], by simp [pop, hh],
    by simp [pop, hh]⟩

/-- Witness for C2 at the concrete empty queue of naturals. -/
theorem c2_witness :
    (pmr_queue.new : pmr_queue Nat).empty = true ∧
    front (pmr_queue.new : pmr_queue Nat) = .thrown "front of empty queue" ∧
    (pop 1 1 (pmr_queue.new : pmr_queue Nat) .new).1 =
      .thrown "pop from empty queue" ∧
    (pop 1 1 (pmr_queue.new : pmr_queue Nat) .new).2.1.size = 0 :=
  ⟨rfl,
   ((c2_fresh_queue_and_empty_ops_throw Nat 1 1 pmr_queue.new .new).2.2.2
      rfl).1,
   ((c2_fresh_queue_and_empty_ops_throw Nat 1 1 pmr_queue.new .new).2.2.2
      rfl).2.1,
   by
     rw [((c2_fresh_queue_and_empty_ops_throw Nat 1 1 pmr_queue.new
       .new).2.2.2 rfl).2.2.1]
     rfl⟩

/-- C3: pushing `n` elements onto a fresh queue bound to a fresh resource and
then popping `n` times leaves the queue empty (`empty() = true`,
`size() = 0`) and the resource with zero live node-storage blocks. -/
theorem c3_roundtrip_no_leak {T : Type} (nodeBytes nodeAlign : Nat)
    (vs : List T) :
    (popN nodeBytes nodeAlign vs.length
        (pushList nodeBytes nodeAlign pmr_queue.new .new vs).1
        (pushList nodeBytes nodeAlign pmr_queue.new .new vs).2).1.empty =
      true ∧
    (popN nodeBytes nodeAlign vs.length
        (pushList nodeBytes nodeAlign pmr_queue.new .new vs).1
        (pushList nodeBytes nodeAlign pmr_queue.new .new vs).2).1.size = 0 ∧
    liveCount (popN nodeBytes nodeAlign vs.length
        (pushList nodeBytes nodeAlign pmr_queue.new .new vs).1
        (pushList nodeBytes nodeAlign pmr_queue.new .new vs).2).2 = 0 := by
  rcases rep_pushList nodeBytes nodeAlign vs rep_new with ⟨l', hr, hvs⟩
  rw [List.nil_append] at hr
  have hlen : vs.length = l'.length := by
    rw [← hvs, List.length_map]
  rw [hlen]
  exact rep_nil_facts (rep_popN nodeBytes nodeAlign hr)

/-- C4: destroying a resource releases the memory of every record still
marked live exactly once (counting release events per address), and releases
nothing for a non-live record — for any reachable resource state, with any
number of live records. -/
theorem c4_destructor_releases_live_blocks_once
    {mr : DynamicVectorMemoryResource} (h : RReach mr) :
    ∀ b ∈ mr.blocks,
      (mr.destruct.countP (fun e => e.1 == b.ptr) =
        if b.allocated then 1 else 0) ∧
      (b.allocated = true → (b.ptr, b.alignment) ∈ mr.destruct) := by
  have hi := rreach_rinv h
  intro b hb
  constructor
  · exact countP_destruct hi.1 hb
  · intro ha
    exact List.mem_map_of_mem _ (List.mem_filter.2 ⟨hb, by simp [ha]⟩)

/-- Witness for C4: a resource with one dead and one live record. -/
theorem c4_witness :
    (((DynamicVectorMemoryResource.new.do_allocate 4
        4).2.do_allocate 8 8).2.do_deallocate 1 4 4).2.destruct.countP
      (fun e => e.1 == 2) = 1 ∧
    ((2 : Nat), (8 : Nat)) ∈
      (((DynamicVectorMemoryResource.new.do_allocate 4
        4).2.do_allocate 8 8).2.do_deallocate 1 4 4).2.destruct := by
  have h := c4_destructor_releases_live_blocks_once
    (RReach.dealloc 1 4 4 (RReach.alloc 8 8 (RReach.alloc 4 4 RReach.init)))
    ⟨2, 8, 8, true⟩ (by decide)
  exact ⟨by simpa using h.1, h.2 rfl⟩

/-- C5: `do_deallocate` keeps the allocator counter; every release event it
emits uses the alignment recorded at allocation time (never the alignment
argument); when no record is found, or the found record is non-live, it is a
no-op; when the found record is live, exactly that one release happens and
the record's live flag drops; every record at a different address is
untouched (same position, same contents); and a second deallocation of the
same address releases nothing. -/
theorem c5_deallocate_uses_recorded_alignment_and_is_safe
    (mr : DynamicVectorMemoryResource) (p bytes alignment : Nat) :
    (mr.do_deallocate p bytes alignment).2.nextAddr = mr.nextAddr ∧
    (∀ e ∈ (mr.do_deallocate p bytes alignment).1,
        ∃ b ∈ mr.blocks, b.ptr = p ∧ b.allocated = true ∧
          e = (p, b.alignment)) ∧
    (mr.find_block p = none →
        (mr.do_deallocate p bytes alignment).1 = [] ∧
        (mr.do_deallocate p bytes alignment).2 = mr) ∧
    (∀ b, mr.find_block p = some b → b.allocated = false →
        (mr.do_deallocate p bytes alignment).1 = [] ∧
        (mr.do_deallocate p bytes alignment).2 = mr) ∧
    (∀ b, mr.find_block p = some b → b.allocated = true →
        (mr.do_deallocate p bytes alignment).1 = [(p, b.alignment)] ∧
        (mr.do_deallocate p bytes alignment).2.find_block p =
          some { b with allocated := false }) ∧
    (mr.do_deallocate p bytes alignment).2.blocks.length =
      mr.blocks.length ∧
    (∀ i : Nat, ∀ b, mr.blocks[i]? = some b → b.ptr ≠ p →
        (mr.do_deallocate p bytes alignment).2.blocks[i]? = some b) ∧
    ((mr.do_deallocate p bytes alignment).2.do_deallocate p bytes
        alignment).1 = [] := by
  refine ⟨rfl, deallocBlocks_events, ?_, ?_, ?_, deallocBlocks_length _ _,
    ?_, deallocBlocks_again _ _⟩
  · intro hf
    have h1 := deallocBlocks_not_found hf
    constructor
    · show (deallocBlocks mr.blocks p).1 = []
      rw [h1]
    · show ({ mr with blocks := (deallocBlocks mr.blocks p).2 } :
          DynamicVectorMemoryResource) = mr
      rw [h1]
  · intro b hf ha
    have h1 := deallocBlocks_found_dead hf ha
    constructor
    · show (deallocBlocks mr.blocks p).1 = []
      rw [h1]
    · show ({ mr with blocks := (deallocBlocks mr.blocks p).2 } :
          DynamicVectorMemoryResource) = mr
      rw [h1]
  · intro b hf ha
    exact deallocBlocks_found_live hf ha
  · intro i b hb hne
    exact deallocBlocks_getElem i hb hne

/-- Witness for C5: a live block at address 1 with recorded alignment 4,
deallocated with a mismatched alignment argument 99. -/
theorem c5_witness :
    (({ blocks := [⟨1, 4, 4, true⟩], nextAddr := 2 } :
        DynamicVectorMemoryResource).do_deallocate 1 4 99).1 = [(1, 4)] :=
  ((c5_deallocate_uses_recorded_alignment_and_is_safe
      { blocks := [⟨1, 4, 4, true⟩], nextAddr := 2 } 1 4
      99).2.2.2.2.1 ⟨1, 4, 4, true⟩ rfl rfl).1

/-- C6: in any resource state reachable by allocate/deallocate calls, a
successful allocate returns a non-null address distinct from every
currently-live address; the tracking vector holds at most one record per
address (its addresses are pairwise distinct), so the lookup for any tracked
record's address finds exactly that record. -/
theorem c6_allocate_fresh_and_lookup_unambiguous
    (mr : DynamicVectorMemoryResource) (h : RReach mr)
    (bytes alignment : Nat) :
    (mr.do_allocate bytes alignment).1 ≠ 0 ∧
    (mr.do_allocate bytes alignment).1 ∉ liveAddrs mr ∧
    (mr.blocks.map (fun b => b.ptr)).Nodup ∧
    (∀ b ∈ mr.blocks, mr.find_block b.ptr = some b) := by
  have hi := rreach_rinv h
  refine ⟨?_, ?_, hi.1, ?_⟩
  · exact Nat.not_eq_zero_of_lt hi.2.2
  · intro hx
    rcases List.mem_map.1 (liveAddrs_subset hx) with ⟨b, hb, hbp⟩
    have hlt := (hi.2.1 b hb).2
    rw [hbp] at hlt
    exact Nat.lt_irrefl _ hlt
  · intro b hb
    exact find?_ptr_self hi.1 hb

/-- Witness for C6 after one allocation. -/
theorem c6_witness :
    ((DynamicVectorMemoryResource.new.do_allocate 4 4).2.do_allocate 8
        8).1 ≠ 0 ∧
    ((DynamicVectorMemoryResource.new.do_allocate 4 4).2.do_allocate 8
        8).1 ∉ liveAddrs (DynamicVectorMemoryResource.new.do_allocate 4
        4).2 :=
  ⟨(c6_allocate_fresh_and_lookup_unambiguous _
      (RReach.alloc 4 4 RReach.init) 8 8).1,
   (c6_allocate_fresh_and_lookup_unambiguous _
      (RReach.alloc 4 4 RReach.init) 8 8).2.1⟩

/-- C7: the structural invariant — `count = 0` iff `head = none` iff
`tail = none`; walking `next` from `head` visits exactly `count` nodes, the
last visited is `tail`, and the tail node's `next` is `none` — holds for
every queue state reachable from construction by pushes and pops. -/
theorem c7_structural_invariant {T : Type} {nodeBytes nodeAlign : Nat}
    {q : pmr_queue T} {mr : DynamicVectorMemoryResource}
    (h : Reach nodeBytes nodeAlign q mr) : SInv q := by
  rcases reach_rep h with ⟨l, hr⟩
  exact rep_sinv hr

/-- Witness for C7 at a queue with one pushed element. -/
theorem c7_witness :
    SInv (push 1 1 (pmr_queue.new : pmr_queue Nat) .new 5).1 :=
  c7_structural_invariant (Reach.push 5 Reach.init)

/-- C8 counterexample: dereferencing the end iterator (here over the empty
node storage of a queue of naturals) does not report any condition — it is
undefined behaviour (a null dereference), never a thrown error, for both
`operator*` and `operator->`. -/
theorem c8_counterexample :
    QueueIterator.deref ([] : Heap Nat) ⟨none⟩ = .undefined ∧
    (QueueIterator.deref ([] : Heap Nat) ⟨none⟩).isThrown = false ∧
    QueueIterator.derefArrow ([] : Heap Nat) ⟨none⟩ = .undefined ∧
    (QueueIterator.derefArrow ([] : Heap Nat) ⟨none⟩).isThrown = false :=
  ⟨rfl, rfl, rfl, rfl⟩

/-- C8 (amended): dereferencing the end-position iterator is an unchecked
null-pointer dereference — undefined behaviour, not a reported
invalid-dereference condition — for both `operator*` and `operator->`, over
any node storage. -/
theorem c8_deref_end_is_undefined_behaviour {T : Type} (heap : Heap T) :
    QueueIterator.deref heap ⟨none⟩ = .undefined ∧
    QueueIterator.derefArrow heap ⟨none⟩ = .undefined ∧
    (QueueIterator.deref heap ⟨none⟩).isThrown = false ∧
    (QueueIterator.derefArrow heap ⟨none⟩).isThrown = false :=
  ⟨rfl, rfl, rfl, rfl⟩

/-- C9: if the element construction inside `push` fails (throws), the chain
is untouched: head, tail, size, the node storage and every node's links are
exactly as before the push — the value is constructed before any splicing. -/
theorem c9_failed_construction_leaves_chain_unchanged {T : Type}
    (nodeBytes nodeAlign : Nat) (q : pmr_queue T)
    (mr : DynamicVectorMemoryResource) (msg : String) :
    (pushGen nodeBytes nodeAlign q mr (.error msg)).1 = .thrown msg ∧
    (pushGen nodeBytes nodeAlign q mr (.error msg)).2.1.head = q.head ∧
    (pushGen nodeBytes nodeAlign q mr (.error msg)).2.1.tail = q.tail ∧
    (pushGen nodeBytes nodeAlign q mr (.error msg)).2.1.size = q.size ∧
    (pushGen nodeBytes nodeAlign q mr (.error msg)).2.1.heap = q.heap ∧
    (∀ a : Nat, lookupNode
        (pushGen nodeBytes nodeAlign q mr (.error msg)).2.1.heap a =
      lookupNode q.heap a) :=
  ⟨rfl, rfl, rfl, rfl, rfl, fun _ => rfl⟩

/-- C10: advancing an iterator already at the end position, by pre- or
post-increment, is a no-op — the iterator stays equal to `end()` and no
failure (neither an exception nor undefined behaviour) occurs. -/
theorem c10_advance_at_end_is_noop {T : Type} (heap : Heap T)
    (q : pmr_queue T) :
    QueueIterator.inc heap q.endIter = .ok q.endIter ∧
    QueueIterator.incPost heap q.endIter = .ok (q.endIter, q.endIter) ∧
    (QueueIterator.inc heap q.endIter).isThrown = false ∧
    QueueIterator.inc heap q.endIter ≠ .undefined ∧
    QueueIterator.beq q.endIter q.endIter = true :=
  ⟨rfl, rfl, rfl, fun h => CppResult.noConfusion h, rfl⟩

end QueuePmr
